import Mathlib

/-!
Verification of the duplicated-transaction reconciliation tool
(`list-all-transactions/src/main.rs`).

The Rust program reads a list of duplicated-transaction records, aggregates
the financial effect of every duplicate occurrence beyond the first into a
height-keyed mint table (`TransposedMintTable`, a
`BTreeMap<u64, BTreeMap<String, u64>>`) and an address-pair-keyed send table
(`TransposedSendTable`, a `BTreeMap<(String, String), u64>`), derives
per-address totals while emitting CSV rows, and prints reports.

`BTreeMap` is embedded as a strictly key-sorted association list; panics
(`unwrap`) are embedded as `Option.none`; `u64` amounts are embedded as `Nat`
(Rust `u64` addition aborts rather than silently wrapping in checked builds,
and the exactness theorems below characterise every stored amount as an exact
integer sum).
-/

/-- The decoded JSON `argument` payload of a record.  In the source the field
is carried as an optional JSON string and decoded inside the two `insert`
functions (`serde_json::from_str` into `BTreeMap<String, String>` for
`tokens.mint`, into `LedgerSendArgument {from, to, amount}` for
`ledger.send`, a decode failure being a panic).  Here the payload is carried
already decoded: a payload of the wrong shape for the operation decodes to a
panic (`none`) exactly as a JSON string of the wrong shape would. -/
inductive Argument where
  | mintMap (entries : List (String × String))
  | send (fromAddr toAddr : String) (amount : Nat)
deriving DecidableEq

/-- `struct DuplicatedTransaction` (main.rs lines 36-45).  Timestamps, the
decoded hash bytes and the neighborhood are carried but never used by
aggregation. -/
structure DuplicatedTransaction where
  orig_time : Nat
  max_time : Nat
  method : String
  heights : List Nat
  hash : List Nat
  argument : Option Argument
  neighborhood : Nat
deriving DecidableEq

/-- The `<` on `String` is decided through the character lists, which the
kernel can evaluate (the builtin decision procedure is compiled code the
kernel cannot unfold).  The order itself is the usual lexicographic one. -/
def decLtStr (a b : String) : Decidable (a < b) :=
  decidable_of_iff _ String.lt_iff_toList_lt.symm

/-- Kernel-evaluable decision of `≤` on `String`. -/
def decLeStr (a b : String) : Decidable (a ≤ b) :=
  decidable_of_iff _ String.le_iff_toList_le.symm

/-- The lexicographic linear order on `String` with kernel-evaluable
decision procedures; the order relations are the standard ones. -/
instance strOrd : LinearOrder String :=
  { inferInstanceAs (LinearOrder String) with
    decidableLT := decLtStr
    decidableLE := decLeStr
    decidableEq := instDecidableEqString
    min := fun a b => @ite _ (a ≤ b) (decLeStr a b) a b
    max := fun a b => @ite _ (a ≤ b) (decLeStr a b) b a
    min_def := fun _ _ => rfl
    max_def := fun _ _ => rfl
    compare := fun a b => @compareOfLessAndEq _ a b _ (decLtStr a b) instDecidableEqString
    compare_eq_compareOfLessAndEq := fun _ _ => rfl }

instance decLtStrRel : @DecidableRel String (· < ·) := decLtStr

/-- The lexicographic linear order `BTreeMap<(String, String), _>` keys
carry, built from `strOrd` so that it also evaluates. -/
instance sendKeyOrd : LinearOrder (String ×ₗ String) :=
  inferInstanceAs (LinearOrder (Lex (String × String)))

instance decLtLexRel : @DecidableRel (String ×ₗ String) (· < ·) :=
  fun a b => sendKeyOrd.decidableLT a b

/-- Rust `str::parse::<u64>()` on a decimal string: an optional leading `+`,
then one or more ASCII digits, failing on anything else and on overflow of
64 bits. -/
def parseU64 (s : String) : Option Nat :=
  let t := if s.toList.take 1 = ['+'] then s.toList.drop 1 else s.toList
  if t = [] then none
  else if t.all (fun c => 48 ≤ c.toNat && c.toNat ≤ 57) then
    let n := t.foldl (fun acc c => acc * 10 + (c.toNat - 48)) 0
    if n < 2 ^ 64 then some n else none
  else none

/-- Rust's `char` predicate `|x| x == '\x7b' || x == '\x7d'` used by
`trim_matches` on the height string. -/
def isBrace (c : Char) : Bool :=
  c = '\x7b' || c = '\x7d'

/-- `str::trim_matches` with the brace predicate: strips every leading and
trailing brace character. -/
def trimBraces (s : String) : String :=
  String.mk (((s.toList.dropWhile isBrace).reverse.dropWhile isBrace).reverse)

/-- Rust `str::split(',')`: splits a character list at every comma, always
producing at least one (possibly empty) piece. -/
def splitCommas : List Char → List (List Char)
  | [] => [[]]
  | c :: rest =>
    if c = ',' then [] :: splitCommas rest
    else
      match splitCommas rest with
      | [] => [[c]]
      | g :: gs => (c :: g) :: gs

/-- The `heights` part of `From<RawDuplicatedTransaction>` (main.rs lines
54-59): trim braces, split on commas, parse every piece as `u64`; any parse
failure is a panic (`none`). -/
def parseHeights (s : String) : Option (List Nat) :=
  (splitCommas (trimBraces s).toList).mapM (fun g => parseU64 (String.mk g))

/-- `BTreeMap::entry(k).or_default()` followed by updating the entry with
`f`, on a key-sorted association list: inserts `(k, f d)` if `k` is absent
(where `d` is the default value), otherwise replaces the value `v` at `k`
with `f v`. -/
def alInsert {α β : Type} [LinearOrder α] (k : α) (d : β) (f : β → β) :
    List (α × β) → List (α × β)
  | [] => [(k, f d)]
  | (k', v) :: rest =>
    if k < k' then (k, f d) :: (k', v) :: rest
    else if k = k' then (k', f v) :: rest
    else (k', v) :: alInsert k d f rest

/-- `*map.entry(k).or_default() += amount` on a key-sorted association list
with `Nat` values. -/
def addTo {α : Type} [LinearOrder α] (k : α) (amount : Nat)
    (t : List (α × Nat)) : List (α × Nat) :=
  alInsert k 0 (fun v => v + amount) t

/-- First-match association-list lookup (`BTreeMap::get`). -/
def alook {α β : Type} [DecidableEq α] (k : α) : List (α × β) → Option β
  | [] => none
  | (k', v) :: rest => if k = k' then some v else alook k rest

/-- `TransposedMintTable` (main.rs line 70): `BTreeMap<u64, BTreeMap<String,
u64>>` as a sorted association list of sorted association lists. -/
abbrev TransposedMintTable := List (Nat × List (String × Nat))

/-- `TransposedSendTable` (main.rs line 100): `BTreeMap<(String, String),
u64>`; the key carries the lexicographic pair order `BTreeMap` uses. -/
abbrev TransposedSendTable := List ((String ×ₗ String) × Nat)

/-- `AliasMap` (main.rs line 67): address to display alias. -/
abbrev AliasMap := List (String × String)

instance decEqMintTable : DecidableEq TransposedMintTable := inferInstance

instance decEqSendTable : DecidableEq TransposedSendTable := inferInstance

instance decEqTablePair : DecidableEq (TransposedMintTable × TransposedSendTable) :=
  inferInstance

/-- One mint addition: `*self.0.entry(*height).or_default()` then
`*inner.entry(address.clone()).or_default() += amount` (main.rs lines
84-85). -/
def mintTableAdd (height : Nat) (address : String) (amount : Nat)
    (t : TransposedMintTable) : TransposedMintTable :=
  alInsert height [] (addTo address amount) t

/-- `TransposedMintTable::insert` (main.rs lines 73-88): records whose
method is not `tokens.mint` are ignored; the argument is unwrapped (panic if
absent) and decoded as a map from address to amount string (panic if the
shape is wrong); then for every address of the argument and every height of
`heights[1..]` — the first height being the only valid occurrence — the
amount string is parsed (panic on failure) and added at `(height, address)`.
The amount parse sits inside the inner loop, as in the source, so it is
never reached when `heights[1..]` is empty. -/
def TransposedMintTable.insert (table : TransposedMintTable)
    (entry : DuplicatedTransaction) : Option TransposedMintTable :=
  if entry.method ≠ "tokens.mint" then some table
  else
    match entry.argument with
    | none => none
    | some (Argument.send _ _ _) => none
    | some (Argument.mintMap entries) =>
      entries.foldlM
        (fun t p =>
          (entry.heights.drop 1).foldlM
            (fun t' height =>
              (parseU64 p.2).map (fun amount => mintTableAdd height p.1 amount t'))
            t)
        table

/-- `TransposedSendTable::insert` (main.rs lines 102-112): records whose
method is not `ledger.send` are ignored; the argument is unwrapped (panic if
absent) and decoded as `{from, to, amount}` (panic if the shape is wrong);
the amount is added once at the key `(from, to)`.  `heights` is never
consulted. -/
def TransposedSendTable.insert (table : TransposedSendTable)
    (entry : DuplicatedTransaction) : Option TransposedSendTable :=
  if entry.method ≠ "ledger.send" then some table
  else
    match entry.argument with
    | none => none
    | some (Argument.mintMap _) => none
    | some (Argument.send f t amount) => some (addTo (toLex (f, t)) amount table)

/-- One iteration of the dispatch loop of `main` (main.rs lines 147-154):
`tokens.mint` records go to the mint table, `ledger.send` records to the
send table, everything else is dropped. -/
def processRecord (tables : TransposedMintTable × TransposedSendTable)
    (t : DuplicatedTransaction) :
    Option (TransposedMintTable × TransposedSendTable) :=
  if t.method = "tokens.mint" then
    (TransposedMintTable.insert tables.1 t).map (fun mt => (mt, tables.2))
  else if t.method = "ledger.send" then
    (TransposedSendTable.insert tables.2 t).map (fun st => (tables.1, st))
  else some tables

/-- The whole aggregation pass of `main`: both tables start empty and every
record is dispatched in order; any panic aborts the run. -/
def processRecords (records : List DuplicatedTransaction) :
    Option (TransposedMintTable × TransposedSendTable) :=
  records.foldlM processRecord ([], [])

/-- The CSV/totals loop of `main` (main.rs lines 156-166): iterating the
mint table in order, every `(height, address, amount)` cell appends one CSV
row `(height, address, alias, amount)` — the alias looked up and defaulted
to the empty string — and adds `amount` to `totals[address]`. -/
def emitMint (aliases : AliasMap) (mt : TransposedMintTable) :
    List (Nat × String × String × Nat) × List (String × Nat) :=
  mt.foldl
    (fun acc he =>
      he.2.foldl
        (fun acc' p =>
          (acc'.1 ++ [(he.1, p.1, (alook p.1 aliases).getD "", p.2)],
           addTo p.1 p.2 acc'.2))
        acc)
    ([], [])

/-- `struct SummaryRow` (main.rs lines 114-119). -/
structure SummaryRow where
  address : String
  aliasName : String
  total : Nat
deriving DecidableEq

/-- The summary construction of `main` (main.rs lines 169-176). -/
def summaryRows (aliases : AliasMap) (totals : List (String × Nat)) :
    List SummaryRow :=
  totals.map (fun p =>
    { address := p.1, aliasName := (alook p.1 aliases).getD "", total := p.2 })

/-- The send listing of `main` (main.rs lines 195-210): every aggregated
pair in table order, each address with its parenthesised alias text when one
exists. -/
def sendListing (aliases : AliasMap) (st : TransposedSendTable) :
    List (String × String × String × String × Nat) :=
  st.map (fun e =>
    ((ofLex e.1).1,
     ((alook (ofLex e.1).1 aliases).map (fun a => " (" ++ a ++ ")")).getD "",
     (ofLex e.1).2,
     ((alook (ofLex e.1).2 aliases).map (fun a => " (" ++ a ++ ")")).getD "",
     e.2))

/-- Everything `main` derives after aggregation, in one value: the two
tables, the CSV rows, the totals, the summary rows, the grand total
(main.rs line 192) and the send listing. -/
def runReports (aliases : AliasMap) (records : List DuplicatedTransaction) :
    Option (TransposedMintTable × TransposedSendTable ×
      List (Nat × String × String × Nat) × List (String × Nat) ×
      List SummaryRow × Nat × List (String × String × String × String × Nat)) :=
  (processRecords records).map (fun ts =>
    let rt := emitMint aliases ts.1
    (ts.1, ts.2, rt.1, rt.2, summaryRows aliases rt.2,
     (rt.2.map Prod.snd).sum, sendListing aliases ts.2))

/-! ### Association-list lemmas -/

/-- A value found by lookup is a value of the list. -/
theorem alook_mem_values {α β : Type} [DecidableEq α] (k : α) (t : List (α × β))
    (v : β) (h : alook k t = some v) : v ∈ t.map Prod.snd := by
  induction t with
  | nil => simp [alook] at h
  | cons p rest ih =>
    obtain ⟨k', v'⟩ := p
    simp only [alook] at h
    split at h
    · cases h; simp
    · simpa using Or.inr (ih h)

/-- Lookup misses a list none of whose keys is `k`. -/
theorem alook_eq_none {α β : Type} [DecidableEq α] (k : α) (t : List (α × β))
    (h : ∀ p ∈ t, p.1 ≠ k) : alook k t = none := by
  induction t with
  | nil => rfl
  | cons p rest ih =>
    obtain ⟨k', v'⟩ := p
    have hk : k ≠ k' := fun e => h (k', v') (by simp) e.symm
    simp only [alook, if_neg hk]
    exact ih (fun q hq => h q (List.mem_cons_of_mem _ hq))

/-- `alInsert` leaves every other key's binding unchanged. -/
theorem alook_alInsert_ne {α β : Type} [LinearOrder α] (k k' : α) (d : β)
    (f : β → β) (t : List (α × β)) (h : k' ≠ k) :
    alook k' (alInsert k d f t) = alook k' t := by
  induction t with
  | nil => simp [alInsert, alook, if_neg h]
  | cons p rest ih =>
    obtain ⟨k₀, v₀⟩ := p
    by_cases h1 : k < k₀
    · simp [alInsert, if_pos h1, alook, if_neg h]
    · by_cases h2 : k = k₀
      · simp only [alInsert, if_neg h1, if_pos h2, alook]
        subst h2
        simp [if_neg h]
      · simp only [alInsert, if_neg h1, if_neg h2, alook]
        split
        · rfl
        · exact ih


/-- On a strictly key-sorted list, `alInsert` updates the binding of `k` by
`f`, reading the default `d` when `k` was absent. -/
theorem alook_alInsert_self {α β : Type} [LinearOrder α] (k : α) (d : β)
    (f : β → β) (t : List (α × β))
    (hs : (t.map Prod.fst).Pairwise (· < ·)) :
    alook k (alInsert k d f t) = some (f ((alook k t).getD d)) := by
  induction t with
  | nil => simp [alInsert, alook]
  | cons p rest ih =>
    obtain ⟨k₀, v₀⟩ := p
    simp only [List.map_cons, List.pairwise_cons] at hs
    by_cases h1 : k < k₀
    · have hnone : alook k ((k₀, v₀) :: rest) = none := by
        refine alook_eq_none _ _ (fun q hq => ?_)
        rcases List.mem_cons.mp hq with rfl | hq'
        · exact ne_of_gt h1
        · exact ne_of_gt (lt_trans h1 (hs.1 q.1 (List.mem_map_of_mem Prod.fst hq')))
      rw [hnone]
      simp [alInsert, if_pos h1, alook]
    · by_cases h2 : k = k₀
      · subst h2
        simp [alInsert, if_neg h1, alook]
      · simp only [alInsert, if_neg h1, if_neg h2, alook, if_neg h2]
        exact ih hs.2

/-- Every key of `alInsert k d f t` is `k` or a key of `t`. -/
theorem mem_keys_alInsert {α β : Type} [LinearOrder α] (k : α) (d : β)
    (f : β → β) (t : List (α × β)) (x : α)
    (hx : x ∈ (alInsert k d f t).map Prod.fst) : x = k ∨ x ∈ t.map Prod.fst := by
  induction t with
  | nil =>
    simp only [alInsert, List.map_cons, List.map_nil, List.mem_singleton] at hx
    exact Or.inl hx
  | cons p rest ih =>
    obtain ⟨k₀, v₀⟩ := p
    by_cases h1 : k < k₀
    · simp only [alInsert, if_pos h1, List.map_cons, List.mem_cons] at hx
      rcases hx with hxk | hx
      · exact Or.inl hxk
      · exact Or.inr (by simpa using hx)
    · by_cases h2 : k = k₀
      · simp only [alInsert, if_neg h1, if_pos h2, List.map_cons, List.mem_cons] at hx
        rcases hx with hxk | hx
        · exact Or.inr (by simp [hxk])
        · exact Or.inr (by simp only [List.map_cons, List.mem_cons]; exact Or.inr hx)
      · simp only [alInsert, if_neg h1, if_neg h2, List.map_cons, List.mem_cons] at hx
        rcases hx with hxk | hx
        · exact Or.inr (by simp [hxk])
        · rcases ih hx with h | h
          · exact Or.inl h
          · exact Or.inr (by simp only [List.map_cons, List.mem_cons]; exact Or.inr h)

/-- `alInsert` preserves strict sortedness of the keys. -/
theorem sortedKeys_alInsert {α β : Type} [LinearOrder α] (k : α) (d : β)
    (f : β → β) (t : List (α × β))
    (hs : (t.map Prod.fst).Pairwise (· < ·)) :
    ((alInsert k d f t).map Prod.fst).Pairwise (· < ·) := by
  induction t with
  | nil => simp [alInsert]
  | cons p rest ih =>
    obtain ⟨k₀, v₀⟩ := p
    simp only [List.map_cons, List.pairwise_cons] at hs
    by_cases h1 : k < k₀
    · simp only [alInsert, if_pos h1, List.map_cons]
      refine List.Pairwise.cons (fun x hx => ?_) (List.Pairwise.cons hs.1 hs.2)
      rcases List.mem_cons.mp hx with rfl | hx'
      · exact h1
      · exact lt_trans h1 (hs.1 x hx')
    · by_cases h2 : k = k₀
      · simp only [alInsert, if_neg h1, if_pos h2, List.map_cons]
        exact List.Pairwise.cons hs.1 hs.2
      · have h3 : k₀ < k := lt_of_le_of_ne (not_lt.mp h1) (fun e => h2 e.symm)
        simp only [alInsert, if_neg h1, if_neg h2, List.map_cons]
        refine List.Pairwise.cons (fun x hx => ?_) (ih hs.2)
        rcases mem_keys_alInsert k d f rest x hx with rfl | hx'
        · exact h3
        · exact hs.1 x hx'

/-- Every value of `alInsert k d f t` is a value of `t`, or `f` applied to a
value of `t`, or `f d`. -/
theorem values_alInsert {α β : Type} [LinearOrder α] (k : α) (d : β)
    (f : β → β) (t : List (α × β)) :
    ∀ v ∈ (alInsert k d f t).map Prod.snd,
      v ∈ t.map Prod.snd ∨ (∃ v₀ ∈ t.map Prod.snd, v = f v₀) ∨ v = f d := by
  induction t with
  | nil =>
    intro v hv
    simp only [alInsert, List.map_cons, List.map_nil, List.mem_singleton] at hv
    exact Or.inr (Or.inr hv)
  | cons p rest ih =>
    obtain ⟨k₀, v₀⟩ := p
    intro v hv
    by_cases h1 : k < k₀
    · simp only [alInsert, if_pos h1, List.map_cons, List.mem_cons] at hv
      rcases hv with hvd | hv
      · exact Or.inr (Or.inr hvd)
      · exact Or.inl (by simp only [List.map_cons, List.mem_cons]; exact hv)
    · by_cases h2 : k = k₀
      · simp only [alInsert, if_neg h1, if_pos h2, List.map_cons, List.mem_cons] at hv
        rcases hv with hvf | hv
        · exact Or.inr (Or.inl ⟨v₀, by simp, hvf⟩)
        · exact Or.inl (by simp only [List.map_cons, List.mem_cons]; exact Or.inr hv)
      · simp only [alInsert, if_neg h1, if_neg h2, List.map_cons, List.mem_cons] at hv
        rcases hv with hv0 | hv
        · exact Or.inl (by simp [hv0])
        · rcases ih v hv with h | h | h
          · exact Or.inl (by simp only [List.map_cons, List.mem_cons]; exact Or.inr h)
          · rcases h with ⟨v₁, hv₁, hf⟩
            refine Or.inr (Or.inl ⟨v₁, ?_, hf⟩)
            simp only [List.map_cons, List.mem_cons]
            exact Or.inr hv₁
          · exact Or.inr (Or.inr h)

/-! ### Table lookups, well-formedness, and the effect of one insertion -/

/-- The amount stored in the mint table for `(height, address)`; an absent
entry counts as zero. -/
def mintAt (mt : TransposedMintTable) (height : Nat) (address : String) : Nat :=
  (alook address ((alook height mt).getD [])).getD 0

/-- The amount stored in the send table for a `(from, to)` pair; an absent
entry counts as zero. -/
def sendAt (st : TransposedSendTable) (k : String × String) : Nat :=
  (alook (toLex k) st).getD 0

/-- The `BTreeMap` invariant of the mint table: outer keys (heights) and
every inner key list (addresses) strictly sorted. -/
def MintWF (mt : TransposedMintTable) : Prop :=
  (mt.map Prod.fst).Pairwise (· < ·) ∧
    ∀ inner ∈ mt.map Prod.snd, (inner.map Prod.fst).Pairwise (· < ·)

/-- The `BTreeMap` invariant of the send table: keys strictly sorted. -/
def SendWF (st : TransposedSendTable) : Prop :=
  (st.map Prod.fst).Pairwise (· < ·)

theorem mintWF_nil : MintWF [] := ⟨List.Pairwise.nil, by simp⟩

theorem sendWF_nil : SendWF [] := List.Pairwise.nil

/-- `addTo` adds `amt` at key `k` and leaves every other key unchanged. -/
theorem alookD_addTo {α : Type} [LinearOrder α] (k k' : α) (amt : Nat)
    (t : List (α × Nat)) (hs : (t.map Prod.fst).Pairwise (· < ·)) :
    (alook k' (addTo k amt t)).getD 0 =
      (alook k' t).getD 0 + (if k' = k then amt else 0) := by
  by_cases h : k' = k
  · subst h
    rw [addTo, alook_alInsert_self k' 0 _ t hs]
    simp
  · rw [addTo, alook_alInsert_ne k k' 0 _ t h]
    simp [h]

/-- One `mintTableAdd` preserves the mint-table invariant. -/
theorem mintWF_mintTableAdd (h : Nat) (a : String) (amt : Nat)
    (mt : TransposedMintTable) (hwf : MintWF mt) :
    MintWF (mintTableAdd h a amt mt) := by
  refine ⟨sortedKeys_alInsert _ _ _ _ hwf.1, fun inner hin => ?_⟩
  rcases values_alInsert h [] (addTo a amt) mt inner hin with hmem | ⟨v₀, hv₀, rfl⟩ | rfl
  · exact hwf.2 inner hmem
  · exact sortedKeys_alInsert _ _ _ _ (hwf.2 v₀ hv₀)
  · exact sortedKeys_alInsert _ _ _ _ (by simp)

/-- One `mintTableAdd` adds `amt` at exactly the cell `(h, a)`. -/
theorem mintAt_mintTableAdd (h h' : Nat) (a a' : String) (amt : Nat)
    (mt : TransposedMintTable) (hwf : MintWF mt) :
    mintAt (mintTableAdd h a amt mt) h' a' =
      mintAt mt h' a' + (if h' = h ∧ a' = a then amt else 0) := by
  by_cases hh : h' = h
  · subst hh
    unfold mintAt mintTableAdd
    rw [alook_alInsert_self h' [] _ mt hwf.1]
    have hinner : (((alook h' mt).getD []).map Prod.fst).Pairwise (· < ·) := by
      cases hv : alook h' mt with
      | none => simp
      | some v => simpa using hwf.2 v (alook_mem_values _ _ _ hv)
    simp only [Option.getD_some]
    rw [alookD_addTo a a' amt _ hinner]
    simp
  · unfold mintAt mintTableAdd
    rw [alook_alInsert_ne h h' [] _ mt hh]
    simp [hh]

/-- Folding one parsed amount over a list of heights adds
`amt * (number of occurrences of the height)` at every cell of that
address, and preserves the invariant. -/
theorem mintAt_foldHeights (hs : List Nat) (a : String) (amt : Nat) :
    ∀ mt : TransposedMintTable, MintWF mt →
      MintWF (hs.foldl (fun t h => mintTableAdd h a amt t) mt) ∧
      ∀ h' a', mintAt (hs.foldl (fun t h => mintTableAdd h a amt t) mt) h' a' =
        mintAt mt h' a' + (if a' = a then amt * hs.count h' else 0) := by
  induction hs with
  | nil =>
    intro mt hwf
    refine ⟨hwf, fun h' a' => ?_⟩
    simp
  | cons h rest ih =>
    intro mt hwf
    simp only [List.foldl_cons]
    obtain ⟨ihwf, iheq⟩ := ih (mintTableAdd h a amt mt) (mintWF_mintTableAdd h a amt mt hwf)
    refine ⟨ihwf, fun h' a' => ?_⟩
    rw [iheq h' a', mintAt_mintTableAdd h h' a a' amt mt hwf]
    by_cases ha : a' = a
    · by_cases hh : h' = h
      · simp only [ha, hh, and_self, ite_true, List.count_cons_self]
        ring
      · have hcount : (h :: rest).count h' = rest.count h' := by
          simp [List.count_cons, hh]
        simp only [ha, hh, ite_true, false_and, ite_false, hcount]
        omega
    · simp [ha]

/-! ### What one record contributes -/

/-- The exact amount a record contributes to the mint-table cell `(h, a)`:
its parsed amount for address `a`, once per occurrence of `h` among the
duplicate heights `heights[1..]`.  Records of any other kind, or without a
mint payload, contribute nothing.  (The `getD 0` is never reached on a
record the program accepts: a failing parse aborts the run unless
`heights[1..]` is empty, and then the count is zero.) -/
def mintContribution (r : DuplicatedTransaction) (h : Nat) (a : String) : Nat :=
  if r.method = "tokens.mint" then
    match r.argument with
    | some (Argument.mintMap entries) =>
      ((entries.filter (fun p => p.1 = a)).map (fun p => (parseU64 p.2).getD 0)).sum *
        (r.heights.drop 1).count h
    | _ => 0
  else 0

/-- The exact amount a record contributes to the send-table bucket `k`: its
amount when it is a send from `k.1` to `k.2`, else nothing. -/
def sendContribution (r : DuplicatedTransaction) (k : String × String) : Nat :=
  if r.method = "ledger.send" then
    match r.argument with
    | some (Argument.send f t amt) => if (f, t) = k then amt else 0
    | _ => 0
  else 0

/-- The inner heights loop with a successfully parsed amount is the pure
fold of `mintTableAdd`. -/
theorem foldHeights_parse_some (tl : List Nat) (a s : String) (amt : Nat)
    (hp : parseU64 s = some amt) :
    ∀ t : TransposedMintTable,
      tl.foldlM (fun t' h => (parseU64 s).map (fun amount => mintTableAdd h a amount t')) t =
        some (tl.foldl (fun t' h => mintTableAdd h a amt t') t) := by
  induction tl with
  | nil => intro t; rfl
  | cons h rest ih =>
    intro t
    have ih' := ih (mintTableAdd h a amt t)
    rw [hp] at ih'
    rw [List.foldlM_cons, List.foldl_cons, hp]
    exact ih'

/-- The inner heights loop panics on the first iteration when the amount
string does not parse and there is at least one duplicate height. -/
theorem foldHeights_parse_none (tl : List Nat) (a s : String)
    (hp : parseU64 s = none) (hne : tl ≠ []) (t : TransposedMintTable) :
    tl.foldlM (fun t' h => (parseU64 s).map (fun amount => mintTableAdd h a amount t')) t =
      none := by
  cases tl with
  | nil => exact absurd rfl hne
  | cons h rest =>
    rw [List.foldlM_cons, hp]
    rfl

/-- A fold that returns its state unchanged at every element succeeds with
the initial state. -/
theorem foldlM_id {γ : Type} (es : List γ) :
    ∀ t : TransposedMintTable, es.foldlM (fun t' (_ : γ) => some t') t = some t := by
  induction es with
  | nil => intro t; rfl
  | cons e rest ih =>
    intro t
    rw [List.foldlM_cons]
    exact ih t

/-- The entries loop of `TransposedMintTable::insert`, when it succeeds,
adds at every cell `(h, a)` the sum of the parsed amounts of the matching
addresses, once per occurrence of `h` among the duplicate heights. -/
theorem mintEntries_spec (tl : List Nat) :
    ∀ (es : List (String × String)) (mt mt' : TransposedMintTable), MintWF mt →
      es.foldlM
        (fun t p => tl.foldlM
          (fun t' height => (parseU64 p.2).map (fun amount => mintTableAdd height p.1 amount t'))
          t) mt = some mt' →
      MintWF mt' ∧ ∀ h' a', mintAt mt' h' a' = mintAt mt h' a' +
        ((es.filter (fun p => p.1 = a')).map (fun p => (parseU64 p.2).getD 0)).sum *
          tl.count h' := by
  by_cases htl : tl = []
  · subst htl
    intro es mt mt' hwf hfold
    have heq : some mt = some mt' := (foldlM_id es mt).symm.trans hfold
    obtain rfl := Option.some.inj heq
    exact ⟨hwf, fun h' a' => by simp⟩
  · intro es
    induction es with
    | nil =>
      intro mt mt' hwf hfold
      obtain rfl := Option.some.inj hfold
      exact ⟨hwf, fun h' a' => by simp⟩
    | cons p rest ih =>
      intro mt mt' hwf hfold
      rw [List.foldlM_cons] at hfold
      cases hp : parseU64 p.2 with
      | none =>
        rw [foldHeights_parse_none tl p.1 p.2 hp htl mt] at hfold
        cases hfold
      | some amt =>
        rw [foldHeights_parse_some tl p.1 p.2 amt hp mt] at hfold
        obtain ⟨hwf1, heq1⟩ := mintAt_foldHeights tl p.1 amt mt hwf
        obtain ⟨hwf2, heq2⟩ :=
          ih (tl.foldl (fun t' h => mintTableAdd h p.1 amt t') mt) mt' hwf1 hfold
        refine ⟨hwf2, fun h' a' => ?_⟩
        rw [heq2 h' a', heq1 h' a']
        by_cases hpa : p.1 = a'
        · rw [if_pos hpa.symm]
          simp only [List.filter_cons, hpa, decide_True, ite_true, List.map_cons,
            List.sum_cons, hp, Option.getD_some]
          ring
        · rw [if_neg (fun e => hpa e.symm)]
          simp [List.filter_cons, hpa, Nat.mul_comm]

/-- `TransposedMintTable::insert` on a `tokens.mint` record, when it
succeeds, adds exactly `mintContribution` at every cell and keeps the table
well-formed. -/
theorem mint_insert_spec (mt mt' : TransposedMintTable) (r : DuplicatedTransaction)
    (hm : r.method = "tokens.mint") (hwf : MintWF mt)
    (hins : TransposedMintTable.insert mt r = some mt') :
    MintWF mt' ∧ ∀ h' a', mintAt mt' h' a' = mintAt mt h' a' + mintContribution r h' a' := by
  unfold TransposedMintTable.insert at hins
  rw [if_neg (fun hc => hc hm)] at hins
  cases harg : r.argument with
  | none => rw [harg] at hins; cases hins
  | some arg =>
    rw [harg] at hins
    cases arg with
    | send f t amt => cases hins
    | mintMap entries =>
      obtain ⟨hwf', heq⟩ := mintEntries_spec (r.heights.drop 1) entries mt mt' hwf hins
      refine ⟨hwf', fun h' a' => ?_⟩
      rw [heq h' a']
      simp [mintContribution, hm, harg]

/-- `TransposedSendTable::insert` on a `ledger.send` record, when it
succeeds, adds exactly `sendContribution` at every bucket and keeps the
table well-formed. -/
theorem send_insert_spec (st st' : TransposedSendTable) (r : DuplicatedTransaction)
    (hm : r.method = "ledger.send") (hwf : SendWF st)
    (hins : TransposedSendTable.insert st r = some st') :
    SendWF st' ∧ ∀ k, sendAt st' k = sendAt st k + sendContribution r k := by
  unfold TransposedSendTable.insert at hins
  rw [if_neg (fun hc => hc hm)] at hins
  cases harg : r.argument with
  | none => rw [harg] at hins; cases hins
  | some arg =>
    rw [harg] at hins
    cases arg with
    | mintMap es => cases hins
    | send f t amt =>
      obtain rfl := Option.some.inj hins
      refine ⟨sortedKeys_alInsert _ _ _ _ hwf, fun k => ?_⟩
      have hstep : sendAt (addTo (toLex (f, t)) amt st) k =
          sendAt st k + (if toLex k = toLex (f, t) then amt else 0) := by
        unfold sendAt
        exact alookD_addTo (toLex (f, t)) (toLex k) amt st hwf
      rw [hstep]
      by_cases hk : k = (f, t)
      · simp [sendContribution, hm, harg, hk]
      · have hk' : ¬((f, t) = k) := fun e => hk e.symm
        simp [sendContribution, hm, harg, toLex_inj, hk, hk']

theorem tokensMint_ne_ledgerSend : ("tokens.mint" : String) ≠ "ledger.send" := by decide

/-- One step of the dispatch loop, when it succeeds, adds exactly the
record's two contributions and keeps both tables well-formed. -/
theorem processRecord_spec (mt st mt' st' : _) (r : DuplicatedTransaction)
    (hwm : MintWF mt) (hws : SendWF st)
    (h : processRecord (mt, st) r = some (mt', st')) :
    MintWF mt' ∧ SendWF st' ∧
      (∀ h' a', mintAt mt' h' a' = mintAt mt h' a' + mintContribution r h' a') ∧
      ∀ k, sendAt st' k = sendAt st k + sendContribution r k := by
  unfold processRecord at h
  by_cases hm : r.method = "tokens.mint"
  · rw [if_pos hm] at h
    cases hins : TransposedMintTable.insert mt r with
    | none => rw [hins] at h; cases h
    | some mt₁ =>
      rw [hins] at h
      have hpair : (mt₁, st) = (mt', st') := Option.some.inj h
      injection hpair with h1 h2
      subst h1
      subst h2
      obtain ⟨hwf', heq⟩ := mint_insert_spec mt mt₁ r hm hwm hins
      refine ⟨hwf', hws, heq, fun k => ?_⟩
      have hz : sendContribution r k = 0 := by
        simp [sendContribution, hm, tokensMint_ne_ledgerSend]
      simp [hz]
  · rw [if_neg hm] at h
    by_cases hsend : r.method = "ledger.send"
    · rw [if_pos hsend] at h
      cases hins : TransposedSendTable.insert st r with
      | none => rw [hins] at h; cases h
      | some st₁ =>
        rw [hins] at h
        have hpair : (mt, st₁) = (mt', st') := Option.some.inj h
        injection hpair with h1 h2
        subst h1
        subst h2
        obtain ⟨hwf', heq⟩ := send_insert_spec st st₁ r hsend hws hins
        refine ⟨hwm, hwf', fun h' a' => ?_, heq⟩
        have hz : mintContribution r h' a' = 0 := by simp [mintContribution, hm]
        simp [hz]
    · rw [if_neg hsend] at h
      have hpair : (mt, st) = (mt', st') := Option.some.inj h
      injection hpair with h1 h2
      subst h1
      subst h2
      refine ⟨hwm, hws, fun h' a' => ?_, fun k => ?_⟩
      · simp [mintContribution, hm]
      · simp [sendContribution, hsend]

/-- The dispatch loop over any record list, from any well-formed state, adds
at every cell the exact sum of the records' contributions. -/
theorem processList_spec (records : List DuplicatedTransaction) :
    ∀ mt st mt' st', MintWF mt → SendWF st →
      records.foldlM processRecord (mt, st) = some (mt', st') →
      MintWF mt' ∧ SendWF st' ∧
        (∀ h' a', mintAt mt' h' a' = mintAt mt h' a' +
          (records.map (fun r => mintContribution r h' a')).sum) ∧
        ∀ k, sendAt st' k = sendAt st k +
          (records.map (fun r => sendContribution r k)).sum := by
  induction records with
  | nil =>
    intro mt st mt' st' hwm hws h
    have hpair : (mt, st) = (mt', st') := Option.some.inj h
    injection hpair with h1 h2
    subst h1
    subst h2
    exact ⟨hwm, hws, fun h' a' => by simp, fun k => by simp⟩
  | cons r rest ih =>
    intro mt st mt' st' hwm hws h
    rw [List.foldlM_cons] at h
    cases hstep : processRecord (mt, st) r with
    | none => rw [hstep] at h; cases h
    | some s₁ =>
      obtain ⟨mt₁, st₁⟩ := s₁
      rw [hstep] at h
      obtain ⟨w1, w2, e1, e2⟩ := processRecord_spec mt st mt₁ st₁ r hwm hws hstep
      obtain ⟨g1, g2, f1, f2⟩ := ih mt₁ st₁ mt' st' w1 w2 h
      refine ⟨g1, g2, fun h' a' => ?_, fun k => ?_⟩
      · rw [f1 h' a', e1 h' a']
        simp [Nat.add_assoc]
      · rw [f2 k, e2 k]
        simp [Nat.add_assoc]

/-- The whole aggregation pass: every cell of both final tables is the exact
integer sum of the records' contributions, and both tables are sorted. -/
theorem processRecords_spec (records : List DuplicatedTransaction)
    (mt : TransposedMintTable) (st : TransposedSendTable)
    (h : processRecords records = some (mt, st)) :
    MintWF mt ∧ SendWF st ∧
      (∀ h' a', mintAt mt h' a' = (records.map (fun r => mintContribution r h' a')).sum) ∧
      ∀ k, sendAt st k = (records.map (fun r => sendContribution r k)).sum := by
  obtain ⟨g1, g2, f1, f2⟩ := processList_spec records [] [] mt st mintWF_nil sendWF_nil h
  refine ⟨g1, g2, fun h' a' => ?_, fun k => ?_⟩
  · have := f1 h' a'
    simpa [mintAt, alook] using this
  · have := f2 k
    simpa [sendAt, alook] using this

/-! ### The report loop: CSV rows, totals, summary, send listing -/

/-- The CSV rows of the report loop in closed form: one row per cell, in
table iteration order. -/
def mintRows (aliases : AliasMap) (mt : TransposedMintTable) :
    List (Nat × String × String × Nat) :=
  (mt.map (fun he => he.2.map (fun p =>
    (he.1, p.1, (alook p.1 aliases).getD "", p.2)))).flatten

/-- The totals map of the report loop in closed form. -/
def mintTotals (mt : TransposedMintTable) : List (String × Nat) :=
  mt.foldl (fun tt he => he.2.foldl (fun t p => addTo p.1 p.2 t) tt) []

/-- One inner pass of the report loop appends the block's rows and folds the
block's amounts into the totals. -/
theorem emitInner_acc (height : Nat) (aliases : AliasMap) (inner : List (String × Nat)) :
    ∀ acc : List (Nat × String × String × Nat) × List (String × Nat),
      inner.foldl (fun acc' p =>
        (acc'.1 ++ [(height, p.1, (alook p.1 aliases).getD "", p.2)], addTo p.1 p.2 acc'.2)) acc =
      (acc.1 ++ inner.map (fun p => (height, p.1, (alook p.1 aliases).getD "", p.2)),
       inner.foldl (fun t p => addTo p.1 p.2 t) acc.2) := by
  induction inner with
  | nil => intro acc; simp
  | cons p rest ih =>
    intro acc
    simp only [List.foldl_cons]
    rw [ih]
    simp

/-- The report loop from any accumulator appends all rows and folds all
amounts. -/
theorem emitMint_acc (aliases : AliasMap) (mt : TransposedMintTable) :
    ∀ acc : List (Nat × String × String × Nat) × List (String × Nat),
      mt.foldl (fun acc' he => he.2.foldl (fun acc'' p =>
        (acc''.1 ++ [(he.1, p.1, (alook p.1 aliases).getD "", p.2)],
         addTo p.1 p.2 acc''.2)) acc') acc =
      (acc.1 ++ mintRows aliases mt,
       mt.foldl (fun tt he => he.2.foldl (fun t p => addTo p.1 p.2 t) tt) acc.2) := by
  induction mt with
  | nil => intro acc; simp [mintRows]
  | cons he rest ih =>
    intro acc
    simp only [List.foldl_cons]
    rw [emitInner_acc he.1 aliases he.2 acc, ih]
    simp [mintRows, List.flatten_cons]

/-- `emitMint` in closed form. -/
theorem emitMint_eq (aliases : AliasMap) (mt : TransposedMintTable) :
    emitMint aliases mt = (mintRows aliases mt, mintTotals mt) := by
  unfold emitMint mintTotals
  exact emitMint_acc aliases mt ([], [])

/-- Folding one block into the totals adds, at every address, the sum of
the block's amounts for that address, and keeps the totals sorted. -/
theorem totalsBlock_spec (inner : List (String × Nat)) :
    ∀ tot : List (String × Nat), (tot.map Prod.fst).Pairwise (· < ·) →
      (((inner.foldl (fun t p => addTo p.1 p.2 t) tot).map Prod.fst).Pairwise (· < ·)) ∧
      ∀ a, (alook a (inner.foldl (fun t p => addTo p.1 p.2 t) tot)).getD 0 =
        (alook a tot).getD 0 + ((inner.filter (fun p => p.1 = a)).map Prod.snd).sum := by
  induction inner with
  | nil => intro tot hs; exact ⟨hs, fun a => by simp⟩
  | cons p rest ih =>
    intro tot hs
    simp only [List.foldl_cons]
    obtain ⟨hs1, he1⟩ := ih (addTo p.1 p.2 tot) (sortedKeys_alInsert _ _ _ _ hs)
    refine ⟨hs1, fun a => ?_⟩
    rw [he1 a, alookD_addTo p.1 a p.2 tot hs]
    by_cases hpa : p.1 = a
    · rw [if_pos hpa.symm]
      simp [List.filter_cons, hpa]
      ring
    · rw [if_neg (fun e => hpa e.symm)]
      simp [List.filter_cons, hpa]

/-- With duplicate-free keys, the filtered sum for an address is exactly the
looked-up amount. -/
theorem filter_sum_eq_alookD (a : String) (inner : List (String × Nat))
    (hnd : (inner.map Prod.fst).Nodup) :
    ((inner.filter (fun p => p.1 = a)).map Prod.snd).sum = (alook a inner).getD 0 := by
  induction inner with
  | nil => simp [alook]
  | cons p rest ih =>
    simp only [List.map_cons, List.nodup_cons] at hnd
    by_cases hpa : p.1 = a
    · have hrest : rest.filter (fun p => p.1 = a) = [] := by
        rw [List.filter_eq_nil_iff]
        intro q hq
        simp only [decide_eq_true_eq]
        intro e
        apply hnd.1
        have hq1 : q.1 = p.1 := by rw [e, ← hpa]
        exact hq1 ▸ List.mem_map_of_mem Prod.fst hq
      rw [List.filter_cons, if_pos (by simp [hpa])]
      simp [hrest, alook, if_pos hpa.symm]
    · rw [List.filter_cons, if_neg (by simp [hpa])]
      rw [ih hnd.2]
      have hne : a ≠ p.1 := fun e => hpa e.symm
      simp [alook, hne]

/-- The totals derived by the report loop assign to every address the exact
sum, over the heights of the table, of that address's stored amount. -/
theorem mintTotals_spec (mt : TransposedMintTable)
    (hin : ∀ inner ∈ mt.map Prod.snd, (inner.map Prod.fst).Pairwise (· < ·)) :
    ∀ a, (alook a (mintTotals mt)).getD 0 =
      (mt.map (fun he => (alook a he.2).getD 0)).sum := by
  suffices h : ∀ tot : List (String × Nat), (tot.map Prod.fst).Pairwise (· < ·) →
      ∀ a, (alook a (mt.foldl (fun tt he => he.2.foldl (fun t p => addTo p.1 p.2 t) tt) tot)).getD 0 =
        (alook a tot).getD 0 + (mt.map (fun he => (alook a he.2).getD 0)).sum by
    intro a
    have := h [] (by simp) a
    simpa [mintTotals, alook] using this
  induction mt with
  | nil => intro tot hs a; simp
  | cons he rest ih =>
    intro tot hs a
    simp only [List.foldl_cons]
    have hhd : (he.2.map Prod.fst).Pairwise (· < ·) := hin he.2 (by simp)
    have hin' : ∀ inner ∈ rest.map Prod.snd, (inner.map Prod.fst).Pairwise (· < ·) := by
      intro inner hmem
      exact hin inner (by simp only [List.map_cons, List.mem_cons]; exact Or.inr hmem)
    obtain ⟨hs1, he1⟩ := totalsBlock_spec he.2 tot hs
    rw [ih hin' (he.2.foldl (fun t p => addTo p.1 p.2 t) tot) hs1 a, he1 a,
      filter_sum_eq_alookD a he.2 (hhd.imp ne_of_lt)]
    simp [Nat.add_assoc]

/-! ### Iteration order and alias-independence of the reports -/

/-- The `(height, address)` keys of the CSV rows are strictly ascending in
the lexicographic order: heights ascending, addresses ascending within a
height. -/
theorem mintRows_keys_sorted (aliases : AliasMap) (mt : TransposedMintTable)
    (hwf : MintWF mt) :
    ((mintRows aliases mt).map (fun row => (row.1, row.2.1))).Pairwise
      (fun x y => x.1 < y.1 ∨ (x.1 = y.1 ∧ x.2 < y.2)) := by
  unfold mintRows
  rw [List.map_flatten, List.pairwise_flatten]
  constructor
  · intro l hl
    simp only [List.map_map, List.mem_map] at hl
    obtain ⟨he, hmem, rfl⟩ := hl
    simp only [Function.comp_apply, List.map_map]
    rw [List.pairwise_map]
    have hinner : he.2.Pairwise (fun p q => p.1 < q.1) :=
      List.pairwise_map.mp (hwf.2 he.2 (List.mem_map_of_mem Prod.snd hmem))
    exact hinner.imp (fun hlt => Or.inr ⟨rfl, hlt⟩)
  · simp only [List.map_map]
    rw [List.pairwise_map]
    have houter : mt.Pairwise (fun he1 he2 => he1.1 < he2.1) :=
      List.pairwise_map.mp hwf.1
    refine houter.imp ?_
    intro he1 he2 hlt x hx y hy
    simp only [Function.comp_apply, List.map_map, List.mem_map] at hx hy
    obtain ⟨p, hp, rfl⟩ := hx
    obtain ⟨q, hq, rfl⟩ := hy
    exact Or.inl hlt

/-- The `(from, to)` keys of the send table are strictly ascending in the
lexicographic pair order. -/
theorem sendTable_keys_sorted (st : TransposedSendTable) (hwf : SendWF st) :
    (st.map (fun e => ofLex e.1)).Pairwise
      (fun x y => x.1 < y.1 ∨ (x.1 = y.1 ∧ x.2 < y.2)) := by
  rw [List.pairwise_map]
  have h : st.Pairwise (fun e1 e2 => e1.1 < e2.1) := List.pairwise_map.mp hwf
  exact h.imp (fun hlt => (Prod.Lex.lt_iff _ _).mp hlt)

/-- The numeric content of the CSV rows does not depend on the alias map. -/
theorem mintRows_proj (A B : AliasMap) (mt : TransposedMintTable) :
    (mintRows A mt).map (fun row => (row.1, row.2.1, row.2.2.2)) =
      (mintRows B mt).map (fun row => (row.1, row.2.1, row.2.2.2)) := by
  unfold mintRows
  rw [List.map_flatten, List.map_flatten]
  simp only [List.map_map]
  congr 1
  apply List.map_congr_left
  intro he _
  simp only [Function.comp_apply, List.map_map]
  apply List.map_congr_left
  intro p _
  rfl

/-- The numeric content of the summary rows does not depend on the alias
map. -/
theorem summaryRows_proj (A B : AliasMap) (totals : List (String × Nat)) :
    (summaryRows A totals).map (fun srow => (srow.address, srow.total)) =
      (summaryRows B totals).map (fun srow => (srow.address, srow.total)) := by
  unfold summaryRows
  simp only [List.map_map]
  rfl

/-- The numeric content of the send listing does not depend on the alias
map. -/
theorem sendListing_proj (A B : AliasMap) (st : TransposedSendTable) :
    (sendListing A st).map (fun row => (row.1, row.2.2.1, row.2.2.2.2)) =
      (sendListing B st).map (fun row => (row.1, row.2.2.1, row.2.2.2.2)) := by
  unfold sendListing
  simp only [List.map_map]
  rfl

/-! ### Skipped records and panics -/

/-- Records of any unrecognised method leave both tables unchanged and do
not fail. -/
theorem processRecord_other (mt : TransposedMintTable) (st : TransposedSendTable)
    (r : DuplicatedTransaction)
    (h1 : r.method ≠ "tokens.mint") (h2 : r.method ≠ "ledger.send") :
    processRecord (mt, st) r = some (mt, st) := by
  unfold processRecord
  rw [if_neg h1, if_neg h2]

/-- Removing a record of an unrecognised method from anywhere in the input
does not change the aggregation result. -/
theorem processRecords_skip (pre post : List DuplicatedTransaction)
    (r : DuplicatedTransaction)
    (h1 : r.method ≠ "tokens.mint") (h2 : r.method ≠ "ledger.send") :
    processRecords (pre ++ r :: post) = processRecords (pre ++ post) := by
  unfold processRecords
  suffices h : ∀ s₀, (pre ++ r :: post).foldlM processRecord s₀ =
      (pre ++ post).foldlM processRecord s₀ from h ([], [])
  induction pre with
  | nil =>
    intro s₀
    obtain ⟨mt, st⟩ := s₀
    rw [List.nil_append, List.nil_append, List.foldlM_cons,
      processRecord_other mt st r h1 h2]
    rfl
  | cons p pre' ih =>
    intro s₀
    rw [List.cons_append, List.cons_append, List.foldlM_cons, List.foldlM_cons]
    cases hstep : processRecord s₀ p with
    | none => rfl
    | some s₁ => exact ih s₁

/-- A record classified as mint or send whose argument is absent panics the
step. -/
theorem processRecord_none_of_no_argument (mt : TransposedMintTable)
    (st : TransposedSendTable) (r : DuplicatedTransaction)
    (hm : r.method = "tokens.mint" ∨ r.method = "ledger.send")
    (ha : r.argument = none) :
    processRecord (mt, st) r = none := by
  unfold processRecord
  rcases hm with hm | hm
  · rw [if_pos hm]
    unfold TransposedMintTable.insert
    rw [if_neg (fun hc => hc hm), ha]
    rfl
  · by_cases hmint : r.method = "tokens.mint"
    · rw [if_pos hmint]
      unfold TransposedMintTable.insert
      rw [if_neg (fun hc => hc hmint), ha]
      rfl
    · rw [if_neg hmint, if_pos hm]
      unfold TransposedSendTable.insert
      rw [if_neg (fun hc => hc hm), ha]
      rfl

/-- A record whose step always panics makes the whole run fail wherever it
sits in the input. -/
theorem processRecords_none_mid (r : DuplicatedTransaction)
    (hr : ∀ s : TransposedMintTable × TransposedSendTable, processRecord s r = none) :
    ∀ (pre post : List DuplicatedTransaction) s₀,
      (pre ++ r :: post).foldlM processRecord s₀ = none := by
  intro pre
  induction pre with
  | nil =>
    intro post s₀
    rw [List.nil_append, List.foldlM_cons, hr s₀]
    rfl
  | cons p pre' ih =>
    intro post s₀
    rw [List.cons_append, List.foldlM_cons]
    cases hstep : processRecord s₀ p with
    | none => rfl
    | some s₁ => exact ih post s₁

/-- A mint record with a single height and a decodable argument leaves the
table unchanged and does not fail: the amount parse inside the heights loop
is never reached. -/
theorem mint_insert_singleton (mt : TransposedMintTable) (r : DuplicatedTransaction)
    (h0 : Nat) (entries : List (String × String))
    (hm : r.method = "tokens.mint") (hh : r.heights = [h0])
    (ha : r.argument = some (Argument.mintMap entries)) :
    TransposedMintTable.insert mt r = some mt := by
  unfold TransposedMintTable.insert
  rw [if_neg (fun hc => hc hm), ha, hh]
  exact foldlM_id entries mt

/-- A normalized heights list is never empty: `split(',')` always yields at
least one piece. -/
theorem splitCommas_ne_nil (cs : List Char) : splitCommas cs ≠ [] := by
  induction cs with
  | nil => simp [splitCommas]
  | cons c rest ih =>
    by_cases hc : c = ','
    · simp [splitCommas, hc]
    · simp only [splitCommas, if_neg hc]
      cases hsp : splitCommas rest with
      | nil => simp
      | cons g gs => simp

/-- A successful `mapM` over `Option` preserves the length. -/
theorem mapM_some_length {α β : Type} (g : α → Option β) :
    ∀ (xs : List α) (ys : List β), xs.mapM g = some ys → ys.length = xs.length := by
  intro xs
  induction xs with
  | nil =>
    intro ys h
    obtain rfl := Option.some.inj h
    rfl
  | cons x rest ih =>
    intro ys h
    rw [List.mapM_cons] at h
    cases hx : g x with
    | none => rw [hx] at h; cases h
    | some y =>
      rw [hx] at h
      cases hrest : rest.mapM g with
      | none => rw [hrest] at h; cases h
      | some ys' =>
        rw [hrest] at h
        obtain rfl := Option.some.inj h
        simp [ih ys' hrest]

/-- Parsed heights lists are non-empty. -/
theorem parseHeights_ne_nil (s : String) (l : List Nat)
    (h : parseHeights s = some l) : l ≠ [] := by
  unfold parseHeights at h
  have hlen := mapM_some_length (fun g => parseU64 (String.mk g)) _ _ h
  intro hl
  subst hl
  exact splitCommas_ne_nil (trimBraces s).toList (List.length_eq_zero.mp hlen.symm)

/-! ### The claims -/

/-- The worked mint example of the specification: one record duplicated at
heights 100, 205, 310 minting 50 to `addr1` and 30 to `addr2`. -/
def exampleMintRecord : DuplicatedTransaction :=
  { orig_time := 0, max_time := 0, method := "tokens.mint",
    heights := [100, 205, 310], hash := [],
    argument := some (Argument.mintMap [("addr1", "50"), ("addr2", "30")]),
    neighborhood := 0 }

/-- The mint table the worked example must produce. -/
def exampleMintTable : TransposedMintTable :=
  [(205, [("addr1", 50), ("addr2", 30)]), (310, [("addr1", 50), ("addr2", 30)])]

/-- A send record from `A` to `B` with the given amount and heights. -/
def exampleSendRecord (amount : Nat) (hs : List Nat) : DuplicatedTransaction :=
  { orig_time := 0, max_time := 0, method := "ledger.send",
    heights := hs, hash := [],
    argument := some (Argument.send "A" "B" amount), neighborhood := 0 }

/-- Claim C1: for every `tokens.mint` record the canonical first height
`heights[0]` never contributes to the mint table: the insertion result does
not depend on it at all, and a height that does not occur among the
duplicates `heights[1..]` keeps its value at every address. -/
theorem claim_C1_canonical_height_excluded
    (mt : TransposedMintTable) (r : DuplicatedTransaction) (h0 h0' : Nat)
    (tl : List Nat) (hh : r.heights = h0 :: tl) :
    (TransposedMintTable.insert mt { r with heights := h0 :: tl } =
      TransposedMintTable.insert mt { r with heights := h0' :: tl }) ∧
    ∀ mt', MintWF mt → r.method = "tokens.mint" →
      TransposedMintTable.insert mt r = some mt' →
      ∀ h a, h ∉ tl → mintAt mt' h a = mintAt mt h a := by
  constructor
  · rfl
  · intro mt' hwf hm hins h a hnotin
    obtain ⟨_, heq⟩ := mint_insert_spec mt mt' r hm hwf hins
    rw [heq h a]
    have hc : mintContribution r h a = 0 := by
      rcases harg : r.argument with _ | arg
      · simp [mintContribution, hm, harg]
      · cases arg with
        | mintMap entries =>
          have hcnt : tl.count h = 0 := List.count_eq_zero.mpr hnotin
          simp [mintContribution, hm, harg, hh, hcnt]
        | send f t amt => simp [mintContribution, hm, harg]
    rw [hc]
    exact Nat.add_zero _

theorem claim_C1_witness :
    mintAt exampleMintTable 100 "addr1" = mintAt [] 100 "addr1" :=
  (claim_C1_canonical_height_excluded [] exampleMintRecord 100 999 [205, 310] rfl).2
    exampleMintTable mintWF_nil rfl (by decide) 100 "addr1" (by decide)

/-- The list of additions `TransposedMintTable::insert` performs: one per
(address, duplicate height) pair, carrying the parsed amount of that
address. -/
def mintAdditions (entries : List (String × String)) (tl : List Nat) :
    List (Nat × String × Nat) :=
  (entries.map (fun p => tl.map (fun h => (h, p.1, (parseU64 p.2).getD 0)))).flatten

/-- The entries loop with all amounts parsing is the pure nested fold. -/
theorem mintEntries_fold_eq (tl : List Nat) :
    ∀ (entries : List (String × String)) (mt : TransposedMintTable),
      (∀ p ∈ entries, (parseU64 p.2).isSome) →
      entries.foldlM
        (fun t p => tl.foldlM
          (fun t' height => (parseU64 p.2).map (fun amount => mintTableAdd height p.1 amount t'))
          t) mt =
      some (entries.foldl
        (fun t p => tl.foldl
          (fun t' h => mintTableAdd h p.1 ((parseU64 p.2).getD 0) t') t) mt) := by
  intro entries
  induction entries with
  | nil => intro mt hp; rfl
  | cons p rest ih =>
    intro mt hp
    rw [List.foldlM_cons, List.foldl_cons]
    obtain ⟨amt, hamt⟩ := Option.isSome_iff_exists.mp (hp p (by simp))
    rw [foldHeights_parse_some tl p.1 p.2 amt hamt mt]
    simp only [hamt, Option.getD_some]
    exact ih (tl.foldl (fun t' h => mintTableAdd h p.1 amt t') mt)
      (fun q hq => hp q (by simp [hq]))

/-- Claim C2: a mint record with `k` addresses and `m` duplicate heights
performs exactly `k × m` additions, each adding the parsed amount of its
address at its height, and the worked example produces exactly the
specified table and totals. -/
theorem claim_C2_mint_addition_count :
    (∀ (mt : TransposedMintTable) (r : DuplicatedTransaction)
        (entries : List (String × String)) (h0 : Nat) (tl : List Nat),
      r.method = "tokens.mint" →
      r.argument = some (Argument.mintMap entries) →
      r.heights = h0 :: tl →
      (∀ p ∈ entries, (parseU64 p.2).isSome) →
      (mintAdditions entries tl).length = entries.length * tl.length ∧
      (∀ p ∈ entries, ∀ h ∈ tl, (h, p.1, (parseU64 p.2).getD 0) ∈ mintAdditions entries tl) ∧
      TransposedMintTable.insert mt r =
        some ((mintAdditions entries tl).foldl
          (fun t e => mintTableAdd e.1 e.2.1 e.2.2 t) mt)) ∧
    processRecords [exampleMintRecord] = some (exampleMintTable, []) ∧
    (emitMint [] exampleMintTable).2 = [("addr1", 100), ("addr2", 60)] := by
  refine ⟨?_, by decide, by decide⟩
  intro mt r entries h0 tl hm harg hh hp
  refine ⟨?_, ?_, ?_⟩
  · unfold mintAdditions
    rw [List.length_flatten, List.map_map]
    have hconst : entries.map
        (List.length ∘ fun p => tl.map (fun h => (h, p.1, (parseU64 p.2).getD 0))) =
        entries.map (Function.const _ tl.length) := by
      apply List.map_congr_left
      intro p _
      simp
    rw [hconst, List.map_const, List.sum_replicate, smul_eq_mul]
  · intro p hp' h hh'
    unfold mintAdditions
    rw [List.mem_flatten]
    exact ⟨tl.map (fun h => (h, p.1, (parseU64 p.2).getD 0)),
      List.mem_map_of_mem _ hp', List.mem_map_of_mem _ hh'⟩
  · unfold TransposedMintTable.insert
    rw [if_neg (fun hc => hc hm), harg, hh]
    simp only [List.drop_succ_cons, List.drop_zero]
    rw [mintEntries_fold_eq tl entries mt hp]
    unfold mintAdditions
    rw [List.foldl_flatten, List.foldl_map]
    simp only [List.foldl_map]

theorem claim_C2_witness :
    (mintAdditions [("addr1", "50"), ("addr2", "30")] [205, 310]).length = 2 * 2 ∧
    TransposedMintTable.insert [] exampleMintRecord =
      some ((mintAdditions [("addr1", "50"), ("addr2", "30")] [205, 310]).foldl
        (fun t e => mintTableAdd e.1 e.2.1 e.2.2 t) []) := by
  have h := claim_C2_mint_addition_count.1 [] exampleMintRecord
    [("addr1", "50"), ("addr2", "30")] 100 [205, 310] rfl rfl rfl (by decide)
  exact ⟨h.1, h.2.2⟩

/-- Claim C3: for every address, the derived per-address total equals the
sum over all heights of the mint table of that address's stored amount,
absent entries counting as zero. -/
theorem claim_C3_totals_sum (aliases : AliasMap) (mt : TransposedMintTable)
    (hin : ∀ inner ∈ mt.map Prod.snd, (inner.map Prod.fst).Pairwise (· < ·))
    (a : String) :
    (alook a (emitMint aliases mt).2).getD 0 =
      (mt.map (fun he => (alook a he.2).getD 0)).sum := by
  rw [emitMint_eq]
  exact mintTotals_spec mt hin a

theorem claim_C3_witness :
    (alook "addr1" (emitMint [] exampleMintTable).2).getD 0 =
      (exampleMintTable.map (fun he => (alook "addr1" he.2).getD 0)).sum :=
  claim_C3_totals_sum [] exampleMintTable (by decide) "addr1"

/-- Claim C4: a send record is aggregated under the key `(from, to)` exactly
once, independent of its heights: the insertion result never reads
`heights`, a successful insertion adds the amount at exactly the `(from,
to)` bucket, and two records with the same pair and amounts 10 and 15
accumulate to 25 whatever their heights. -/
theorem claim_C4_send_key_once :
    (∀ (st : TransposedSendTable) (r : DuplicatedTransaction) (hs : List Nat),
      TransposedSendTable.insert st r =
        TransposedSendTable.insert st { r with heights := hs }) ∧
    (∀ (st st' : TransposedSendTable) (r : DuplicatedTransaction)
        (f t : String) (amt : Nat),
      r.method = "ledger.send" → r.argument = some (Argument.send f t amt) →
      SendWF st → TransposedSendTable.insert st r = some st' →
      ∀ k, sendAt st' k = sendAt st k + (if k = (f, t) then amt else 0)) ∧
    processRecords [exampleSendRecord 10 [1, 2], exampleSendRecord 15 [7]] =
      some ([], [(toLex ("A", "B"), 25)]) := by
  refine ⟨fun st r hs => rfl, ?_, by decide⟩
  intro st st' r f t amt hm harg hwf hins k
  obtain ⟨_, heq⟩ := send_insert_spec st st' r hm hwf hins
  have hcontrib : sendContribution r k = if k = (f, t) then amt else 0 := by
    by_cases hk : k = (f, t)
    · simp [sendContribution, hm, harg, hk]
    · have hk' : ¬((f, t) = k) := fun e => hk e.symm
      simp [sendContribution, hm, harg, hk, hk']
  rw [heq k, hcontrib]

theorem claim_C4_witness :
    sendAt [(toLex ("A", "B"), 10)] ("A", "B") =
      sendAt [] ("A", "B") + (if (("A", "B") : String × String) = ("A", "B") then 10 else 0) :=
  claim_C4_send_key_once.2.1 [] [(toLex ("A", "B"), 10)] (exampleSendRecord 10 [1, 2])
    "A" "B" 10 rfl rfl sendWF_nil (by decide) ("A", "B")

/-- Claim C5: accumulation never loses value: every stored amount of the
mint table and the send table is the exact integer sum of the records'
contributions, and every derived per-address total is the exact integer sum
of that address's stored amounts over all heights. -/
theorem claim_C5_exact_accumulation (records : List DuplicatedTransaction)
    (mt : TransposedMintTable) (st : TransposedSendTable)
    (h : processRecords records = some (mt, st)) :
    (∀ h' a', mintAt mt h' a' = (records.map (fun r => mintContribution r h' a')).sum) ∧
    (∀ k, sendAt st k = (records.map (fun r => sendContribution r k)).sum) ∧
    ∀ aliases a, (alook a (emitMint aliases mt).2).getD 0 =
      (mt.map (fun he => (alook a he.2).getD 0)).sum := by
  obtain ⟨g1, _, f1, f2⟩ := processRecords_spec records mt st h
  refine ⟨f1, f2, fun aliases a => ?_⟩
  rw [emitMint_eq]
  exact mintTotals_spec mt g1.2 a

theorem claim_C5_witness :
    mintAt exampleMintTable 205 "addr1" =
      ([exampleMintRecord].map (fun r => mintContribution r 205 "addr1")).sum :=
  (claim_C5_exact_accumulation [exampleMintRecord] exampleMintTable [] (by decide)).1
    205 "addr1"

/-- Claim C6: aggregation is independent of the alias map: for any two
alias maps and the same records, the tables, the totals, the grand total
and the numeric projections of every report row coincide; aliases only
annotate display text. -/
theorem claim_C6_alias_independent (A B : AliasMap)
    (records : List DuplicatedTransaction) :
    (runReports A records).map
      (fun out => (out.1, out.2.1,
        out.2.2.1.map (fun row => (row.1, row.2.1, row.2.2.2)),
        out.2.2.2.1,
        out.2.2.2.2.1.map (fun srow => (srow.address, srow.total)),
        out.2.2.2.2.2.1,
        out.2.2.2.2.2.2.map (fun row => (row.1, row.2.2.1, row.2.2.2.2)))) =
    (runReports B records).map
      (fun out => (out.1, out.2.1,
        out.2.2.1.map (fun row => (row.1, row.2.1, row.2.2.2)),
        out.2.2.2.1,
        out.2.2.2.2.1.map (fun srow => (srow.address, srow.total)),
        out.2.2.2.2.2.1,
        out.2.2.2.2.2.2.map (fun row => (row.1, row.2.2.1, row.2.2.2.2)))) := by
  unfold runReports
  cases hpr : processRecords records with
  | none => rfl
  | some ts =>
    simp only [Option.map_some', emitMint_eq]
    rw [mintRows_proj A B ts.1, summaryRows_proj A B (mintTotals ts.1),
      sendListing_proj A B ts.2]

/-- Claim C7: the mint report rows are emitted in strictly ascending
`(height, address)` order — heights ascending, addresses lexicographically
ascending within a height — and the send listing in strictly ascending
`(from, to)` order. -/
theorem claim_C7_report_order (records : List DuplicatedTransaction)
    (mt : TransposedMintTable) (st : TransposedSendTable) (aliases : AliasMap)
    (h : processRecords records = some (mt, st)) :
    (((emitMint aliases mt).1.map (fun row => (row.1, row.2.1))).Pairwise
      (fun x y => x.1 < y.1 ∨ (x.1 = y.1 ∧ x.2 < y.2))) ∧
    (st.map (fun e => ofLex e.1)).Pairwise
      (fun x y => x.1 < y.1 ∨ (x.1 = y.1 ∧ x.2 < y.2)) := by
  obtain ⟨g1, g2, _, _⟩ := processRecords_spec records mt st h
  constructor
  · rw [emitMint_eq]
    exact mintRows_keys_sorted aliases mt g1
  · exact sendTable_keys_sorted st g2

theorem claim_C7_witness :
    (((emitMint [] exampleMintTable).1.map (fun row => (row.1, row.2.1))).Pairwise
      (fun x y => x.1 < y.1 ∨ (x.1 = y.1 ∧ x.2 < y.2))) ∧
    (([(toLex ("A", "B"), 10)] : TransposedSendTable).map (fun e => ofLex e.1)).Pairwise
      (fun x y => x.1 < y.1 ∨ (x.1 = y.1 ∧ x.2 < y.2)) :=
  claim_C7_report_order [exampleMintRecord, exampleSendRecord 10 [1, 2]]
    exampleMintTable [(toLex ("A", "B"), 10)] [] (by decide)

/-- A record with an unrecognised operation, as in the specification's
example. -/
def unknownRecord : DuplicatedTransaction :=
  { orig_time := 0, max_time := 0, method := "unknown.op", heights := [42],
    hash := [], argument := none, neighborhood := 0 }

/-- Claim C8: a record whose operation is neither `tokens.mint` nor
`ledger.send` leaves both tables unchanged and does not fail, and removing
it from anywhere in the input leaves the aggregation result unchanged. -/
theorem claim_C8_unrecognized_skipped
    (mt : TransposedMintTable) (st : TransposedSendTable)
    (r : DuplicatedTransaction) (pre post : List DuplicatedTransaction)
    (h1 : r.method ≠ "tokens.mint") (h2 : r.method ≠ "ledger.send") :
    processRecord (mt, st) r = some (mt, st) ∧
    processRecords (pre ++ r :: post) = processRecords (pre ++ post) :=
  ⟨processRecord_other mt st r h1 h2, processRecords_skip pre post r h1 h2⟩

theorem claim_C8_witness :
    processRecord (([] : TransposedMintTable), ([] : TransposedSendTable)) unknownRecord =
      some ([], []) ∧
    processRecords ([] ++ unknownRecord :: []) = processRecords ([] ++ []) :=
  claim_C8_unrecognized_skipped [] [] unknownRecord [] [] (by decide) (by decide)

/-- Claim C9, counterexample: a `ledger.send` record with a single height
does contribute — send aggregation never reads `heights`, so the amount is
added once regardless; the claim that such a record contributes nothing to
any table is false. -/
theorem claim_C9_counterexample :
    processRecords [exampleSendRecord 10 [42]] = some ([], [(toLex ("A", "B"), 10)]) ∧
    sendAt [(toLex ("A", "B"), 10)] ("A", "B") ≠ 0 :=
  ⟨by decide, by decide⟩

/-- Claim C9 as amended: a `tokens.mint` record with a single height and a
present, decodable argument contributes nothing to any table and does not
fail — `heights[1..]` is empty and taking it is safe — and every normalized
heights list is non-empty.  (A single-height `ledger.send` record still adds
its amount once, since send aggregation ignores heights.) -/
theorem claim_C9_amended
    (mt : TransposedMintTable) (r : DuplicatedTransaction) (h0 : Nat)
    (entries : List (String × String))
    (hm : r.method = "tokens.mint") (hh : r.heights = [h0])
    (ha : r.argument = some (Argument.mintMap entries)) :
    TransposedMintTable.insert mt r = some mt ∧
    ∀ s l, parseHeights s = some l → l ≠ [] :=
  ⟨mint_insert_singleton mt r h0 entries hm hh ha, parseHeights_ne_nil⟩

/-- A mint record with a single height, for the amended C9. -/
def singleMintRecord : DuplicatedTransaction :=
  { orig_time := 0, max_time := 0, method := "tokens.mint", heights := [42],
    hash := [], argument := some (Argument.mintMap [("addr1", "50")]),
    neighborhood := 0 }

theorem claim_C9_witness :
    TransposedMintTable.insert [] singleMintRecord = some [] :=
  (claim_C9_amended [] singleMintRecord 42 [("addr1", "50")] rfl rfl rfl).1

/-- A mint record without an argument payload. -/
def noArgMintRecord : DuplicatedTransaction :=
  { orig_time := 0, max_time := 0, method := "tokens.mint", heights := [1, 2],
    hash := [], argument := none, neighborhood := 0 }

/-- Claim C10: a record classified as mint or send whose optional argument
is absent makes the step — and therefore the whole run, wherever the record
sits — fail rather than being skipped. -/
theorem claim_C10_missing_argument_fatal
    (mt : TransposedMintTable) (st : TransposedSendTable)
    (r : DuplicatedTransaction) (pre post : List DuplicatedTransaction)
    (hm : r.method = "tokens.mint" ∨ r.method = "ledger.send")
    (ha : r.argument = none) :
    processRecord (mt, st) r = none ∧ processRecords (pre ++ r :: post) = none := by
  refine ⟨processRecord_none_of_no_argument mt st r hm ha, ?_⟩
  unfold processRecords
  exact processRecords_none_mid r
    (fun s => processRecord_none_of_no_argument s.1 s.2 r hm ha) pre post ([], [])

theorem claim_C10_witness :
    processRecord (([] : TransposedMintTable), ([] : TransposedSendTable)) noArgMintRecord =
      none ∧
    processRecords ([] ++ noArgMintRecord :: []) = none :=
  claim_C10_missing_argument_fatal [] [] noArgMintRecord [] [] (Or.inl rfl) rfl
